import Mathlib

/-!
# Verification of the video-analyzer orchestration spec against the repository

This development shallowly embeds the parts of the repository that the
checked properties speak about:

* the Task Store / Agent Manager of the orchestration core.  Only the
  frontend, protocol documentation and integration notes of this part are
  present in the repository sources; the Python services themselves are
  not.  Those definitions are therefore modelled from the specification's
  operation contracts (sections 4.1–4.3) and are marked as such.
* the React/Tauri frontend (`ChatWindow.tsx`, `UploadPanel.tsx`,
  `grpcClient.ts`), translated directly from the TypeScript sources.

All definitions are executable, so each theorem with hypotheses comes with
a concrete evaluated witness.
-/

namespace VA

/-! ## Capabilities, task states and the Task Store (modelled from the spec) -/

/-- Modelled from the spec: the closed set of capability tags an agent
declares and a task requires (section 3, "capability"). -/
inductive Cap
  | transcription
  | vision
  | generation
deriving DecidableEq, Repr

/-- Modelled from the spec: the six task lifecycle states (section 3,
Task.`state`). -/
inductive TaskState
  | Pending
  | Assigned
  | Running
  | Succeeded
  | Failed
  | Cancelled
deriving DecidableEq, Repr

/-- A task state is terminal when no further lifecycle transition may leave
it (Succeeded, Failed or Cancelled). -/
def TaskState.terminal : TaskState → Bool
  | .Succeeded => true
  | .Failed => true
  | .Cancelled => true
  | _ => false

/-- Modelled from the spec: the Task record of section 3.  Opaque payloads
(input, result, error kinds) are represented by naturals. -/
structure Task where
  task_id : Nat
  conversation_id : Nat
  capability_required : Cap
  input : Nat
  state : TaskState
  progress : Nat
  result : Option Nat
  error : Option Nat
  assigned_agent_id : Option Nat
deriving DecidableEq, Repr

/-- Outcome of a Task Store operation: applied, rejected as a logged no-op,
or failed with one of the spec's error kinds (section 7). -/
inductive TSOutcome
  | applied
  | rejectedNoop
  | errInvalidTransition
  | errDoubleCompletion
deriving DecidableEq, Repr

/-- The Task Store operations of section 4.2 that act on an existing task
(`Submit` creates a task and is modelled by `submitTask`). -/
inductive TSOp
  | markAssigned (aid : Nat)
  | markRunning
  | updateProgress (p : Nat)
  | complete (r : Nat)
  | fail (e : Nat)
  | cancel
deriving DecidableEq, Repr

/-- Modelled from the spec: `Submit(conversation_id, capability_required,
input) → task_id` creates a Pending task (section 4.2). -/
def submitTask (tid conv : Nat) (c : Cap) (inp : Nat) : Task :=
  { task_id := tid
    conversation_id := conv
    capability_required := c
    input := inp
    state := .Pending
    progress := 0
    result := none
    error := none
    assigned_agent_id := none }

/-- Modelled from the spec: the effect of one Task Store operation on one
task (section 4.2), returning the updated task, the operation outcome and
the progress event (if any) emitted to subscribers:

* `MarkAssigned`: Pending→Assigned; `InvalidTransition` otherwise.
* `MarkRunning`: Assigned→Running; `InvalidTransition` otherwise.
* `UpdateProgress`: rejected (no-op, logged, no event) if the value is
  less than the current progress or the task is not Running.
* `Complete`/`Fail`: terminal transitions from Running or Assigned only;
  a second call with the same terminal outcome is a no-op, a second call
  with a different outcome is `DoubleCompletion`.
* `Cancel`: allowed from Pending/Assigned/Running. -/
def applyTS : TSOp → Task → Task × TSOutcome × Option Nat
  | .markAssigned aid, t =>
    if t.state = .Pending then
      ({ t with state := .Assigned, assigned_agent_id := some aid }, .applied, none)
    else (t, .errInvalidTransition, none)
  | .markRunning, t =>
    if t.state = .Assigned then ({ t with state := .Running }, .applied, none)
    else (t, .errInvalidTransition, none)
  | .updateProgress p, t =>
    if t.state = .Running ∧ t.progress ≤ p then
      ({ t with progress := p }, .applied, some p)
    else (t, .rejectedNoop, none)
  | .complete r, t =>
    if t.state = .Running ∨ t.state = .Assigned then
      ({ t with state := .Succeeded, result := some r }, .applied, none)
    else if t.state = .Succeeded ∧ t.result = some r then (t, .rejectedNoop, none)
    else if t.state.terminal then (t, .errDoubleCompletion, none)
    else (t, .errInvalidTransition, none)
  | .fail e, t =>
    if t.state = .Running ∨ t.state = .Assigned then
      ({ t with state := .Failed, error := some e }, .applied, none)
    else if t.state = .Failed ∧ t.error = some e then (t, .rejectedNoop, none)
    else if t.state.terminal then (t, .errDoubleCompletion, none)
    else (t, .errInvalidTransition, none)
  | .cancel, t =>
    if t.state = .Pending ∨ t.state = .Assigned ∨ t.state = .Running then
      ({ t with state := .Cancelled }, .applied, none)
    else (t, .errInvalidTransition, none)

/-- One Task Store step, keeping only the task. -/
def stepTS (t : Task) (op : TSOp) : Task := (applyTS op t).1

/-- The sequence of lifecycle states a task passes through under a sequence
of Task Store operations (the initial state included). -/
def taskStates (t : Task) : List TSOp → List TaskState
  | [] => [t.state]
  | op :: rest => t.state :: taskStates (stepTS t op) rest

/-- The task-state edges that are actually reachable through the Task Store
operations of section 4.2: Pending→Assigned→Running→{Succeeded,Failed},
Assigned→{Succeeded,Failed} (Complete/Fail are allowed from Assigned),
and →Cancelled from any non-terminal state. -/
def taskEdge : TaskState → TaskState → Bool
  | .Pending, .Assigned => true
  | .Assigned, .Running => true
  | .Running, .Succeeded => true
  | .Running, .Failed => true
  | .Assigned, .Succeeded => true
  | .Assigned, .Failed => true
  | .Pending, .Cancelled => true
  | .Assigned, .Cancelled => true
  | .Running, .Cancelled => true
  | _, _ => false

/-- The edge set exactly as the specification's section 8 property (and the
claim) words it: Pending→Assigned→Running→{Succeeded,Failed} plus
→Cancelled from any non-terminal state — without Assigned→{Succeeded,Failed}. -/
def claimedEdge : TaskState → TaskState → Bool
  | .Pending, .Assigned => true
  | .Assigned, .Running => true
  | .Running, .Succeeded => true
  | .Running, .Failed => true
  | .Pending, .Cancelled => true
  | .Assigned, .Cancelled => true
  | .Running, .Cancelled => true
  | _, _ => false

/-- Every single Task Store operation either leaves the task state unchanged
or moves it along a reachable edge. -/
theorem stepTS_edge (op : TSOp) (t : Task) :
    (stepTS t op).state = t.state ∨ taskEdge t.state (stepTS t op).state = true := by
  rcases op <;> rcases ht : t.state <;>
    simp [stepTS, applyTS, ht, taskEdge, TaskState.terminal] <;>
    (try split) <;> simp_all

/-- The state trace always begins with the initial state. -/
theorem taskStates_cons_form (t : Task) (ops : List TSOp) :
    ∃ l, taskStates t ops = t.state :: l := by
  cases ops <;> exact ⟨_, rfl⟩

/-- C1, amended: along any sequence of Task Store operations the task state
moves only along the edges of `taskEdge` — that is,
Pending→Assigned→Running→{Succeeded,Failed}, Assigned→{Succeeded,Failed}
(Complete/Fail act from Assigned too, per the spec's own operation
contract), plus →Cancelled from any non-terminal state; consecutive states
in any trace are equal or joined by such an edge. -/
theorem taskStates_chain'_taskEdge (t : Task) (ops : List TSOp) :
    List.Chain' (fun a b => a = b ∨ taskEdge a b = true) (taskStates t ops) := by
  induction ops generalizing t with
  | nil => simp [taskStates]
  | cons op rest ih =>
    obtain ⟨l, hl⟩ := taskStates_cons_form (stepTS t op) rest
    have h := ih (stepTS t op)
    rw [hl] at h
    simp only [taskStates, hl]
    refine List.Chain'.cons ?_ h
    rcases stepTS_edge op t with h1 | h1
    · exact Or.inl h1.symm
    · exact Or.inr h1

/-- C1, counterexample to the claim as stated: the trace of a freshly
submitted task under `MarkAssigned` then `Complete` passes Pending →
Assigned → Succeeded, and the step Assigned → Succeeded is outside the
claim's edge list `claimedEdge` even though the Task Store operations of
the spec reach it. -/
theorem c1_counterexample :
    taskStates (submitTask 0 0 .transcription 0) [.markAssigned 1, .complete 7] =
      [.Pending, .Assigned, .Succeeded] ∧
    claimedEdge .Assigned .Succeeded = false := by
  constructor
  · rfl
  · rfl

/-! ## Progress events and subscriptions (C5) -/

/-- Run a sequence of Task Store operations on a task, collecting the
progress events emitted to subscribers in order. -/
def runEvents (t : Task) : List TSOp → Task × List Nat
  | [] => (t, [])
  | op :: rest =>
    let r := applyTS op t
    let r2 := runEvents r.1 rest
    (r2.1, r.2.2.toList ++ r2.2)

/-- No Task Store operation ever decreases a task's recorded progress. -/
theorem stepTS_progress_le (op : TSOp) (t : Task) :
    t.progress ≤ (stepTS t op).progress := by
  rcases op <;> simp only [stepTS, applyTS] <;> (try split) <;> (try split) <;>
    (try split) <;> simp_all

/-- An emitted progress event equals the new recorded progress and is at
least the old one. -/
theorem applyTS_event (op : TSOp) (t : Task) (p : Nat)
    (h : (applyTS op t).2.2 = some p) :
    (applyTS op t).1.progress = p ∧ t.progress ≤ p := by
  rcases op <;> simp only [applyTS] at h ⊢ <;> (try split at h) <;>
    (try split at h) <;> (try split at h) <;> simp_all

/-- The progress events emitted along any operation sequence form a
non-decreasing chain, all bounded below by the initial progress. -/
theorem runEvents_chain_aux (ops : List TSOp) (t : Task) :
    List.Chain' (· ≤ ·) (runEvents t ops).2 ∧
      ∀ e ∈ (runEvents t ops).2, t.progress ≤ e := by
  induction ops generalizing t with
  | nil => simp [runEvents]
  | cons op rest ih =>
    obtain ⟨ihc, ihb⟩ := ih (applyTS op t).1
    cases hev : (applyTS op t).2.2 with
    | none =>
      refine ⟨?_, ?_⟩
      · simpa [runEvents, hev] using ihc
      · intro e he
        simp only [runEvents, hev, Option.toList_none, List.nil_append] at he
        exact le_trans (stepTS_progress_le op t) (ihb e he)
    | some p =>
      obtain ⟨hp1, hp2⟩ := applyTS_event op t p hev
      refine ⟨?_, ?_⟩
      · simp only [runEvents, hev, Option.toList_some, List.singleton_append]
        rw [List.chain'_cons']
        refine ⟨?_, ihc⟩
        intro b hb
        have hb' : b ∈ (runEvents (applyTS op t).1 rest).2 :=
          List.mem_of_mem_head? hb
        have := ihb b hb'
        omega
      · intro e he
        simp only [runEvents, hev, Option.toList_some, List.singleton_append,
          List.mem_cons] at he
        rcases he with rfl | he
        · exact hp2
        · have := ihb e he
          omega

/-- C5: progress is monotone per task — an `UpdateProgress` whose value is
below the current progress, or arriving when the task is not Running, is a
rejected no-op that leaves the task unchanged and emits no event; and the
sequence of progress events a subscriber observes under any operation
sequence is non-decreasing. -/
theorem updateProgress_rejected_and_monotone :
    (∀ (t : Task) (p : Nat), p < t.progress ∨ t.state ≠ .Running →
        applyTS (.updateProgress p) t = (t, .rejectedNoop, none)) ∧
    (∀ (t : Task) (ops : List TSOp),
        List.Chain' (· ≤ ·) (runEvents t ops).2) := by
  constructor
  · intro t p h
    have hcond : ¬(t.state = .Running ∧ t.progress ≤ p) := by
      rcases h with h | h
      · intro hc
        omega
      · intro hc
        exact h hc.1
    simp [applyTS, hcond]
  · intro t ops
    exact (runEvents_chain_aux ops t).1

/-- A concrete Running task with progress 50, used by witnesses. -/
def tRunning50 : Task :=
  { task_id := 1
    conversation_id := 0
    capability_required := .transcription
    input := 0
    state := .Running
    progress := 50
    result := none
    error := none
    assigned_agent_id := some 2 }

/-- Witness for C5: at the concrete Running task with progress 50, the
out-of-order update to 3 is a rejected no-op emitting nothing, and a
concrete operation run yields a non-decreasing event sequence. -/
theorem updateProgress_rejected_and_monotone_witness :
    applyTS (.updateProgress 3) tRunning50 = (tRunning50, .rejectedNoop, none) ∧
    List.Chain' (· ≤ ·)
      (runEvents tRunning50 [.updateProgress 60, .updateProgress 55, .updateProgress 70]).2 :=
  ⟨updateProgress_rejected_and_monotone.1 tRunning50 3 (Or.inl (by decide)),
   updateProgress_rejected_and_monotone.2 tRunning50
     [.updateProgress 60, .updateProgress 55, .updateProgress 70]⟩

/-! ## Idempotent completion (C6) -/

/-- C6: `Complete`/`Fail` are idempotent on terminal tasks — repeating the
same terminal outcome is a no-op leaving the task unchanged, a different
outcome is rejected with `DoubleCompletion` leaving the task unchanged —
and they apply successfully exactly from Running or Assigned. -/
theorem complete_fail_idempotent_and_guarded :
    (∀ (t : Task) (r : Nat), t.state = .Succeeded → t.result = some r →
        applyTS (.complete r) t = (t, .rejectedNoop, none)) ∧
    (∀ (t : Task) (r : Nat), t.state.terminal = true →
        ¬(t.state = .Succeeded ∧ t.result = some r) →
        applyTS (.complete r) t = (t, .errDoubleCompletion, none)) ∧
    (∀ (t : Task) (e : Nat), t.state = .Failed → t.error = some e →
        applyTS (.fail e) t = (t, .rejectedNoop, none)) ∧
    (∀ (t : Task) (e : Nat), t.state.terminal = true →
        ¬(t.state = .Failed ∧ t.error = some e) →
        applyTS (.fail e) t = (t, .errDoubleCompletion, none)) ∧
    (∀ (t : Task) (r : Nat), (applyTS (.complete r) t).2.1 = .applied ↔
        (t.state = .Running ∨ t.state = .Assigned)) ∧
    (∀ (t : Task) (e : Nat), (applyTS (.fail e) t).2.1 = .applied ↔
        (t.state = .Running ∨ t.state = .Assigned)) := by
  refine ⟨?_, ?_, ?_, ?_, ?_, ?_⟩
  · intro t r h1 h2
    simp [applyTS, h1, h2]
  · intro t r h1 h2
    rcases ht : t.state <;> rw [ht] at h1 <;>
      simp_all [applyTS, TaskState.terminal]
  · intro t e h1 h2
    simp [applyTS, h1, h2]
  · intro t e h1 h2
    rcases ht : t.state <;> rw [ht] at h1 <;>
      simp_all [applyTS, TaskState.terminal]
  · intro t r
    rcases ht : t.state <;>
      simp [applyTS, ht, TaskState.terminal] <;> split <;> simp
  · intro t e
    rcases ht : t.state <;>
      simp [applyTS, ht, TaskState.terminal] <;> split <;> simp

/-- A concrete Succeeded task with result 9, used by witnesses. -/
def tSucceeded9 : Task :=
  { task_id := 1
    conversation_id := 0
    capability_required := .transcription
    input := 0
    state := .Succeeded
    progress := 100
    result := some 9
    error := none
    assigned_agent_id := some 2 }

/-- Witness for C6: on the concrete Succeeded task with result 9, repeating
`Complete 9` is a no-op, `Complete 4` is a `DoubleCompletion`, `Fail 4` is a
`DoubleCompletion`, and `Complete` does not apply from this terminal
state. -/
theorem complete_fail_idempotent_and_guarded_witness :
    applyTS (.complete 9) tSucceeded9 = (tSucceeded9, .rejectedNoop, none) ∧
    applyTS (.complete 4) tSucceeded9 = (tSucceeded9, .errDoubleCompletion, none) ∧
    applyTS (.fail 4) tSucceeded9 = (tSucceeded9, .errDoubleCompletion, none) ∧
    ¬((applyTS (.complete 9) tSucceeded9).2.1 = .applied) := by
  refine ⟨?_, ?_, ?_, ?_⟩
  · exact complete_fail_idempotent_and_guarded.1 tSucceeded9 9 (by decide) (by decide)
  · exact complete_fail_idempotent_and_guarded.2.1 tSucceeded9 4 (by decide) (by decide)
  · exact complete_fail_idempotent_and_guarded.2.2.2.1 tSucceeded9 4 (by decide) (by decide)
  · intro h
    have := (complete_fail_idempotent_and_guarded.2.2.2.2.1 tSucceeded9 9).mp h
    rcases this with h' | h' <;> simp [tSucceeded9] at h'

/-! ## Agent registry and the Agent Manager store (modelled from the spec) -/

/-- Modelled from the spec: the agent lifecycle states (section 3,
Agent.`state`). -/
inductive AgentState
  | Registered
  | Idle
  | Busy
  | Unresponsive
  | Deregistered
deriving DecidableEq, Repr

/-- Modelled from the spec: the Agent record of section 3 (heartbeat
timestamps are irrelevant to the checked claims and omitted). -/
structure Agent where
  agent_id : Nat
  capability : Cap
  state : AgentState
deriving DecidableEq, Repr

/-- Modelled from the spec: the state the Agent Manager owns — the Task
Store (tasks in submission order, oldest first) and the Agent Registry,
plus a fresh-id counter. -/
structure Store where
  tasks : List Task
  agents : List Agent
  next_id : Nat
deriving Repr

/-- Modelled from the spec: `Submit` creates a Pending task with a fresh
task id; it succeeds whether or not any agent of the capability exists
(section 4.3, capability starvation). -/
def submit (s : Store) (conv : Nat) (c : Cap) (inp : Nat) : Store × Nat :=
  ({ s with
      tasks := s.tasks ++ [submitTask s.next_id conv c inp]
      next_id := s.next_id + 1 },
   s.next_id)

/-- Modelled from the spec: `Register(capability) → agent_id` creates a new
agent record in state Registered→Idle (section 4.1). -/
def registerAgent (s : Store) (c : Cap) : Store × Nat :=
  ({ s with
      agents := s.agents ++ [{ agent_id := s.next_id, capability := c, state := .Idle }]
      next_id := s.next_id + 1 },
   s.next_id)

/-- Apply a Task Store operation to the task with the given id. -/
def applyStoreOp (s : Store) (tid : Nat) (op : TSOp) : Store :=
  { s with
      tasks := s.tasks.map fun t => if t.task_id = tid then (applyTS op t).1 else t }

/-- Modelled from the spec: `ListIdleByCapability` restricted to what the
assignment step needs — the first Idle agent of the capability. -/
def findIdleByCap (agents : List Agent) (c : Cap) : Option Agent :=
  agents.find? fun a => a.state = .Idle ∧ a.capability = c

/-- Mark the task Assigned to the agent and the agent Busy. -/
def assignTo (s : Store) (tid aid : Nat) : Store :=
  { s with
      tasks := s.tasks.map fun t =>
        if t.task_id = tid then { t with state := .Assigned, assigned_agent_id := some aid }
        else t
      agents := s.agents.map fun b =>
        if b.agent_id = aid then { b with state := .Busy } else b }

/-- Modelled from the spec: the assignment loop of section 4.3 over the
Pending tasks oldest first — for the oldest Pending task find an Idle agent
of matching capability; if none exists leave the task Pending and stop; on
a match mark the task Assigned and the agent Busy and repeat for the next
Pending task. -/
def assignGo : List Nat → Store → Store
  | [], s => s
  | tid :: rest, s =>
    match s.tasks.find? (fun t => t.task_id = tid) with
    | none => s
    | some t =>
      if t.state = .Pending then
        match findIdleByCap s.agents t.capability_required with
        | none => s
        | some a => assignGo rest (assignTo s tid a.agent_id)
      else assignGo rest s

/-- The ids of the Pending tasks, oldest first (FIFO by submission order —
no priority scheme). -/
def pendingIds (s : Store) : List Nat :=
  (s.tasks.filter (fun t => t.state = .Pending)).map Task.task_id

/-- Modelled from the spec: one full assignment pass of the Agent Manager
(triggered on Submit and on an agent becoming Idle). -/
def assignPass (s : Store) : Store :=
  assignGo (pendingIds s) s

/-- The operations the surrounding system can drive the manager with:
submission and cancellation by the Chat Service, agent registration,
the manager's own assignment pass, and the agent-driven task updates.
(`MarkAssigned` is manager-internal and only happens inside the
assignment pass, per section 4.3.) -/
inductive SysOp
  | submitOp (conv : Nat) (c : Cap) (inp : Nat)
  | registerOp (c : Cap)
  | assignOp
  | runningOp (tid : Nat)
  | progressOp (tid : Nat) (p : Nat)
  | completeOp (tid : Nat) (r : Nat)
  | failOp (tid : Nat) (e : Nat)
  | cancelOp (tid : Nat)
deriving DecidableEq, Repr

/-- Interpret one system operation on the manager's store. -/
def applySys : SysOp → Store → Store
  | .submitOp conv c inp, s => (submit s conv c inp).1
  | .registerOp c, s => (registerAgent s c).1
  | .assignOp, s => assignPass s
  | .runningOp tid, s => applyStoreOp s tid .markRunning
  | .progressOp tid p, s => applyStoreOp s tid (.updateProgress p)
  | .completeOp tid r, s => applyStoreOp s tid (.complete r)
  | .failOp tid e, s => applyStoreOp s tid (.fail e)
  | .cancelOp tid, s => applyStoreOp s tid .cancel

/-- Run a sequence of system operations. -/
def runSys (s : Store) : List SysOp → Store
  | [] => s
  | op :: rest => runSys (applySys op s) rest

/-- Every Task Store operation preserves a task's id and required
capability. -/
theorem applyTS_id_cap (op : TSOp) (t : Task) :
    (applyTS op t).1.task_id = t.task_id ∧
      (applyTS op t).1.capability_required = t.capability_required := by
  rcases op <;> simp only [applyTS] <;> (try split) <;> (try split) <;>
    (try split) <;> simp

/-- On a Pending task, every agent-driven Task Store operation (anything but
`MarkAssigned` and `Cancel`) is rejected and leaves the task unchanged. -/
theorem applyTS_pending_stuck (op : TSOp) (t : Task) (hpend : t.state = .Pending)
    (h1 : ∀ aid, op ≠ .markAssigned aid) (h2 : op ≠ .cancel) :
    (applyTS op t).1 = t := by
  rcases op <;> simp_all [applyTS, TaskState.terminal]

/-- The starvation invariant of C7: a distinguished task `tid` of capability
`c` is Pending, every task id is below the fresh-id counter, and no agent
of capability `c` exists. -/
def StarvedInv (tid : Nat) (c : Cap) (s : Store) : Prop :=
  (∀ t ∈ s.tasks, t.task_id < s.next_id) ∧
  (∃ t ∈ s.tasks, t.task_id = tid) ∧
  (∀ t ∈ s.tasks, t.task_id = tid → t.state = .Pending ∧ t.capability_required = c) ∧
  (∀ a ∈ s.agents, a.capability ≠ c)

/-- The assignment loop preserves the starvation invariant: with no agent of
capability `c` registered, the starved task is never assigned. -/
theorem assignGo_starved (tid : Nat) (c : Cap) (l : List Nat) (s : Store)
    (hinv : StarvedInv tid c s) : StarvedInv tid c (assignGo l s) := by
  induction l generalizing s with
  | nil => exact hinv
  | cons tid' rest ih =>
    obtain ⟨hbound, hex, hpend, hag⟩ := hinv
    show StarvedInv tid c (assignGo (tid' :: rest) s)
    unfold assignGo
    cases hf : s.tasks.find? (fun u => u.task_id = tid') with
    | none => exact ⟨hbound, hex, hpend, hag⟩
    | some t =>
      dsimp only
      by_cases hts : t.state = .Pending
      · rw [if_pos hts]
        cases hidle : findIdleByCap s.agents t.capability_required with
        | none => exact ⟨hbound, hex, hpend, hag⟩
        | some a =>
          apply ih
          have hane : tid' ≠ tid := by
            intro h
            subst h
            have hmem : t ∈ s.tasks := List.mem_of_find?_eq_some hf
            have hid : t.task_id = tid' := by
              have := List.find?_some hf
              simpa using this
            have hcapc : t.capability_required = c := (hpend t hmem hid).2
            have hamem : a ∈ s.agents := List.mem_of_find?_eq_some hidle
            have hapred := List.find?_some hidle
            simp only [decide_eq_true_eq, Bool.decide_and, Bool.and_eq_true] at hapred
            have : a.capability = c := by
              rw [← hcapc]
              exact hapred.2
            exact hag a hamem (by rw [this])
          refine ⟨?_, ?_, ?_, ?_⟩
          · intro u hu
            simp only [assignTo, List.mem_map] at hu
            obtain ⟨v, hv, rfl⟩ := hu
            have hvb := hbound v hv
            by_cases hvt : v.task_id = tid' <;> simp [assignTo, hvt] <;> omega
          · obtain ⟨w, hw, hwid⟩ := hex
            refine ⟨if w.task_id = tid' then { w with state := .Assigned, assigned_agent_id := some a.agent_id } else w, ?_, ?_⟩
            · simp only [assignTo, List.mem_map]
              exact ⟨w, hw, by split <;> rfl⟩
            · split <;> exact hwid
          · intro u hu huid
            simp only [assignTo, List.mem_map] at hu
            obtain ⟨v, hv, rfl⟩ := hu
            by_cases hvt : v.task_id = tid'
            · exfalso
              rw [if_pos hvt] at huid
              have : v.task_id = tid := huid
              exact hane (hvt ▸ this)
            · rw [if_neg hvt] at huid ⊢
              exact hpend v hv huid
          · intro b hb
            simp only [assignTo, List.mem_map] at hb
            obtain ⟨b0, hb0, rfl⟩ := hb
            by_cases hbid : b0.agent_id = a.agent_id <;> simp [hbid] <;>
              exact hag b0 hb0
      · rw [if_neg hts]
        exact ih s ⟨hbound, hex, hpend, hag⟩

/-- An agent-driven Task Store call (not `MarkAssigned`, not `Cancel` of the
starved task) preserves the starvation invariant. -/
theorem applyStoreOp_starved (tid : Nat) (c : Cap) (tid' : Nat) (op : TSOp) (s : Store)
    (hinv : StarvedInv tid c s)
    (h1 : ∀ aid, op ≠ .markAssigned aid) (h2 : op ≠ .cancel) :
    StarvedInv tid c (applyStoreOp s tid' op) := by
  obtain ⟨hbound, hex, hpend, hag⟩ := hinv
  refine ⟨?_, ?_, ?_, hag⟩
  · intro t ht
    simp only [applyStoreOp, List.mem_map] at ht
    obtain ⟨v, hv, rfl⟩ := ht
    split
    · rw [(applyTS_id_cap op v).1]
      exact hbound v hv
    · exact hbound v hv
  · obtain ⟨w, hw, hwid⟩ := hex
    refine ⟨if w.task_id = tid' then (applyTS op w).1 else w, ?_, ?_⟩
    · simp only [applyStoreOp, List.mem_map]
      exact ⟨w, hw, by split <;> rfl⟩
    · split
      · rw [(applyTS_id_cap op w).1]
        exact hwid
      · exact hwid
  · intro t ht htid
    simp only [applyStoreOp, List.mem_map] at ht
    obtain ⟨v, hv, rfl⟩ := ht
    by_cases hvt : v.task_id = tid'
    · rw [if_pos hvt, (applyTS_id_cap op v).1] at htid
      rw [if_pos hvt]
      obtain ⟨hvp, hvc⟩ := hpend v hv htid
      rw [applyTS_pending_stuck op v hvp h1 h2]
      exact ⟨hvp, hvc⟩
    · rw [if_neg hvt] at htid ⊢
      exact hpend v hv htid

/-- A single system operation, other than registering a `c`-agent or
cancelling the starved task, preserves the starvation invariant. -/
theorem applySys_starved (tid : Nat) (c : Cap) (op : SysOp) (s : Store)
    (hinv : StarvedInv tid c s)
    (hreg : op ≠ .registerOp c) (hcanc : op ≠ .cancelOp tid) :
    StarvedInv tid c (applySys op s) := by
  obtain ⟨hbound, hex, hpend, hag⟩ := hinv
  have htid_lt : tid < s.next_id := by
    obtain ⟨w, hw, hwid⟩ := hex
    exact hwid ▸ hbound w hw
  cases op with
  | submitOp conv c' inp =>
    refine ⟨?_, ?_, ?_, hag⟩
    · intro t ht
      simp only [applySys, submit, List.mem_append, List.mem_singleton] at ht
      rcases ht with ht | rfl
      · exact Nat.lt_succ_of_lt (hbound t ht)
      · simp [applySys, submit, submitTask]
    · obtain ⟨w, hw, hwid⟩ := hex
      exact ⟨w, by simp [applySys, submit, List.mem_append, hw], hwid⟩
    · intro t ht htid
      simp only [applySys, submit, List.mem_append, List.mem_singleton] at ht
      rcases ht with ht | rfl
      · exact hpend t ht htid
      · exfalso
        simp [submitTask] at htid
        omega
  | registerOp c' =>
    have hcne : c' ≠ c := fun h => hreg (by rw [h])
    refine ⟨?_, hex, hpend, ?_⟩
    · intro t ht
      simp only [applySys, registerAgent] at ht
      exact Nat.lt_succ_of_lt (hbound t ht)
    · intro a ha
      simp only [applySys, registerAgent, List.mem_append, List.mem_singleton] at ha
      rcases ha with ha | rfl
      · exact hag a ha
      · simpa using hcne
  | assignOp => exact assignGo_starved tid c (pendingIds s) s ⟨hbound, hex, hpend, hag⟩
  | runningOp tid' =>
    exact applyStoreOp_starved tid c tid' .markRunning s ⟨hbound, hex, hpend, hag⟩
      (fun aid h => by cases h) (fun h => by cases h)
  | progressOp tid' p =>
    exact applyStoreOp_starved tid c tid' (.updateProgress p) s ⟨hbound, hex, hpend, hag⟩
      (fun aid h => by cases h) (fun h => by cases h)
  | completeOp tid' r =>
    exact applyStoreOp_starved tid c tid' (.complete r) s ⟨hbound, hex, hpend, hag⟩
      (fun aid h => by cases h) (fun h => by cases h)
  | failOp tid' e =>
    exact applyStoreOp_starved tid c tid' (.fail e) s ⟨hbound, hex, hpend, hag⟩
      (fun aid h => by cases h) (fun h => by cases h)
  | cancelOp tid' =>
    have hne : tid' ≠ tid := fun h => hcanc (by rw [h])
    refine ⟨?_, ?_, ?_, hag⟩
    · intro t ht
      simp only [applyStoreOp, applySys, List.mem_map] at ht
      obtain ⟨v, hv, rfl⟩ := ht
      split
      · rw [(applyTS_id_cap .cancel v).1]
        exact hbound v hv
      · exact hbound v hv
    · obtain ⟨w, hw, hwid⟩ := hex
      refine ⟨if w.task_id = tid' then (applyTS .cancel w).1 else w, ?_, ?_⟩
      · simp only [applyStoreOp, applySys, List.mem_map]
        exact ⟨w, hw, by split <;> rfl⟩
      · split
        · rw [(applyTS_id_cap .cancel w).1]
          exact hwid
        · exact hwid
    · intro t ht htid
      simp only [applyStoreOp, applySys, List.mem_map] at ht
      obtain ⟨v, hv, rfl⟩ := ht
      by_cases hvt : v.task_id = tid'
      · exfalso
        rw [if_pos hvt, (applyTS_id_cap .cancel v).1] at htid
        exact hne (hvt ▸ htid ▸ rfl)
      · rw [if_neg hvt] at htid ⊢
        exact hpend v hv htid

/-- Any run of system operations that never registers a `c`-agent and never
cancels the starved task preserves the starvation invariant. -/
theorem runSys_starved (tid : Nat) (c : Cap) (ops : List SysOp) (s : Store)
    (hinv : StarvedInv tid c s)
    (hreg : SysOp.registerOp c ∉ ops)
    (hcanc : SysOp.cancelOp tid ∉ ops) :
    StarvedInv tid c (runSys s ops) := by
  induction ops generalizing s with
  | nil => exact hinv
  | cons op rest ih =>
    have hreg1 : op ≠ .registerOp c := fun h => hreg (h ▸ List.mem_cons_self op rest)
    have hcanc1 : op ≠ .cancelOp tid := fun h => hcanc (h ▸ List.mem_cons_self op rest)
    exact ih (applySys op s)
      (applySys_starved tid c op s hinv hreg1 hcanc1)
      (fun h => hreg (List.mem_cons_of_mem op h))
      (fun h => hcanc (List.mem_cons_of_mem op h))

/-- C7: submitting a task whose required capability has no registered agent
still succeeds — the new task exists and is Pending — and under any
subsequent system activity that neither registers a matching agent nor
cancels it, the task is still present and still Pending (in particular the
manager never spontaneously fails it). -/
theorem submit_starved_stays_pending (s0 : Store) (conv inp : Nat) (c : Cap)
    (ops : List SysOp)
    (hbound : ∀ t ∈ s0.tasks, t.task_id < s0.next_id)
    (hag : ∀ a ∈ s0.agents, a.capability ≠ c)
    (hreg : SysOp.registerOp c ∉ ops)
    (hcanc : SysOp.cancelOp (submit s0 conv c inp).2 ∉ ops) :
    (∃ t ∈ (submit s0 conv c inp).1.tasks,
        t.task_id = (submit s0 conv c inp).2 ∧ t.state = .Pending) ∧
    (∃ t ∈ (runSys (submit s0 conv c inp).1 ops).tasks,
        t.task_id = (submit s0 conv c inp).2) ∧
    (∀ t ∈ (runSys (submit s0 conv c inp).1 ops).tasks,
        t.task_id = (submit s0 conv c inp).2 → t.state = .Pending) := by
  have hinv : StarvedInv (submit s0 conv c inp).2 c (submit s0 conv c inp).1 := by
    refine ⟨?_, ?_, ?_, hag⟩
    · intro t ht
      simp only [submit, List.mem_append, List.mem_singleton] at ht
      rcases ht with ht | rfl
      · exact Nat.lt_succ_of_lt (hbound t ht)
      · simp [submit, submitTask]
    · exact ⟨submitTask s0.next_id conv c inp,
        by simp [submit, List.mem_append], by simp [submit, submitTask]⟩
    · intro t ht htid
      simp only [submit, List.mem_append, List.mem_singleton] at ht
      rcases ht with ht | rfl
      · exfalso
        have := hbound t ht
        simp only [submit] at htid
        omega
      · simp [submitTask]
  have hrun := runSys_starved (submit s0 conv c inp).2 c ops (submit s0 conv c inp).1
    hinv hreg hcanc
  exact ⟨⟨submitTask s0.next_id conv c inp,
      by simp [submit, List.mem_append], by simp [submit, submitTask],
      by simp [submitTask]⟩,
    hrun.2.1,
    fun t ht htid => (hrun.2.2.1 t ht htid).1⟩

/-- A concrete store with one vision agent and no tasks, used by
witnesses. -/
def storeVisionAgent : Store :=
  { tasks := []
    agents := [{ agent_id := 0, capability := .vision, state := .Idle }]
    next_id := 1 }

/-- Witness for C7: submitting a transcription task into the concrete store
that only has a vision agent, then running an assignment pass, an unrelated
submission and a spurious Complete, leaves the submitted task Pending. -/
theorem submit_starved_stays_pending_witness :
    (∃ t ∈ (submit storeVisionAgent 0 .transcription 5).1.tasks,
        t.task_id = (submit storeVisionAgent 0 .transcription 5).2 ∧
        t.state = .Pending) ∧
    (∃ t ∈ (runSys (submit storeVisionAgent 0 .transcription 5).1
        [.assignOp, .submitOp 0 .vision 6, .completeOp 1 3]).tasks,
        t.task_id = (submit storeVisionAgent 0 .transcription 5).2) ∧
    (∀ t ∈ (runSys (submit storeVisionAgent 0 .transcription 5).1
        [.assignOp, .submitOp 0 .vision 6, .completeOp 1 3]).tasks,
        t.task_id = (submit storeVisionAgent 0 .transcription 5).2 →
        t.state = .Pending) :=
  submit_starved_stays_pending storeVisionAgent 0 5 .transcription
    [.assignOp, .submitOp 0 .vision 6, .completeOp 1 3]
    (by intro t ht; simp [storeVisionAgent] at ht)
    (by intro a ha; simp [storeVisionAgent] at ha; simp [ha])
    (by decide) (by decide)

/-! ## FIFO assignment (C8) -/

/-- Mapping a list injectively-by-ids makes membership determined by the
id: two members with the same image under `f` are equal when the mapped
list has no duplicates. -/
theorem eq_of_nodup_map {α β : Type} (f : α → β) (l : List α)
    (hnd : (l.map f).Nodup) (u v : α) (hu : u ∈ l) (hv : v ∈ l) (h : f u = f v) :
    u = v := by
  induction l with
  | nil => cases hu
  | cons w rest ih =>
    rw [List.map_cons, List.nodup_cons] at hnd
    rcases List.mem_cons.mp hu with rfl | hu' <;>
      rcases List.mem_cons.mp hv with rfl | hv'
    · rfl
    · exact absurd (show f u ∈ rest.map f by
        rw [h]; exact List.mem_map_of_mem f hv') hnd.1
    · exact absurd (show f v ∈ rest.map f by
        rw [← h]; exact List.mem_map_of_mem f hu') hnd.1
    · exact ih hnd.2 hu' hv'

/-- When task ids are unique, looking a member task up by its id finds
exactly it. -/
theorem find?_by_task_id (l : List Task) (t0 : Task)
    (hnd : (l.map Task.task_id).Nodup) (hmem : t0 ∈ l) :
    l.find? (fun u => u.task_id = t0.task_id) = some t0 := by
  induction l with
  | nil => cases hmem
  | cons u rest ih =>
    rw [List.map_cons, List.nodup_cons] at hnd
    rcases List.mem_cons.mp hmem with rfl | hmem'
    · rw [List.find?_cons_of_pos]
      simp
    · have hne : ¬(u.task_id = t0.task_id) := by
        intro h
        exact hnd.1 (by rw [h]; exact List.mem_map_of_mem Task.task_id hmem')
      rw [List.find?_cons_of_neg]
      · exact ih hnd.2 hmem'
      · simpa using hne

/-- When the list holds exactly one Idle agent of the capability, the idle
lookup finds it. -/
theorem findIdleByCap_eq_some (l : List Agent) (a : Agent) (c : Cap)
    (ha : a ∈ l) (hai : a.state = .Idle) (hac : a.capability = c)
    (huniq : ∀ b ∈ l, b.state = .Idle → b.capability = c → b = a) :
    findIdleByCap l c = some a := by
  induction l with
  | nil => cases ha
  | cons u rest ih =>
    unfold findIdleByCap at ih ⊢
    by_cases hu : u.state = .Idle ∧ u.capability = c
    · have hua : u = a := huniq u (List.mem_cons_self u rest) hu.1 hu.2
      rw [List.find?_cons_of_pos]
      · rw [hua]
      · simp [hu.1, hu.2]
    · rcases List.mem_cons.mp ha with rfl | ha'
      · exact absurd ⟨hai, hac⟩ hu
      · rw [List.find?_cons_of_neg]
        · exact ih ha' (fun b hb h1 h2 => huniq b (List.mem_cons_of_mem u hb) h1 h2)
        · simpa using hu

/-- When no Idle agent of capability `c` exists, the assignment loop stops
at its first task of capability `c` and changes nothing. -/
theorem assignGo_stop (c : Cap) (l : List Nat) (s : Store)
    (hidle : findIdleByCap s.agents c = none)
    (hcap : ∀ tid ∈ l, ∀ t, s.tasks.find? (fun u => u.task_id = tid) = some t →
      t.capability_required = c) :
    assignGo l s = s := by
  induction l with
  | nil => rfl
  | cons tid rest ih =>
    unfold assignGo
    cases hf : s.tasks.find? (fun u => u.task_id = tid) with
    | none => rfl
    | some t =>
      dsimp only
      by_cases hts : t.state = .Pending
      · rw [if_pos hts, hcap tid (List.mem_cons_self tid rest) t hf, hidle]
      · rw [if_neg hts]
        exact ih (fun tid' h t' hf' => hcap tid' (List.mem_cons_of_mem tid h) t' hf')

/-- C8: with every Pending task requiring capability `c` and exactly one
Idle agent `a` of that capability, the assignment pass assigns the oldest
Pending task (FIFO by submission order) to `a` and leaves every newer
Pending task Pending. -/
theorem assignPass_fifo (s : Store) (c : Cap) (a : Agent) (tid0 : Nat) (rest : List Nat)
    (hnd : (s.tasks.map Task.task_id).Nodup)
    (hp0 : pendingIds s = tid0 :: rest)
    (hcap : ∀ t ∈ s.tasks, t.state = .Pending → t.capability_required = c)
    (hamem : a ∈ s.agents) (haidle : a.state = .Idle) (hacap : a.capability = c)
    (huniq : ∀ b ∈ s.agents, b.state = .Idle → b.capability = c → b = a) :
    (∀ t ∈ (assignPass s).tasks, t.task_id = tid0 →
        t.state = .Assigned ∧ t.assigned_agent_id = some a.agent_id) ∧
    (∀ t ∈ (assignPass s).tasks, t.task_id ∈ rest → t.state = .Pending) ∧
    (∃ t ∈ (assignPass s).tasks, t.task_id = tid0) := by
  -- decompose the head of the Pending list
  cases hfil : s.tasks.filter (fun t => t.state = .Pending) with
  | nil => rw [pendingIds, hfil] at hp0; cases hp0
  | cons t0 rest' =>
  have hp1 : t0.task_id = tid0 ∧ rest'.map Task.task_id = rest := by
    rw [pendingIds, hfil, List.map_cons] at hp0
    exact ⟨(List.cons.injEq _ _ _ _).mp hp0 |>.1, (List.cons.injEq _ _ _ _).mp hp0 |>.2⟩
  obtain ⟨hid0, hmaprest⟩ := hp1
  have ht0f : t0 ∈ s.tasks.filter (fun t => t.state = .Pending) := by
    rw [hfil]; exact List.mem_cons_self t0 rest'
  have ht0mem : t0 ∈ s.tasks := (List.mem_filter.mp ht0f).1
  have ht0p : t0.state = .Pending := by
    have := (List.mem_filter.mp ht0f).2
    simpa using this
  have ht0c : t0.capability_required = c := hcap t0 ht0mem ht0p
  have hfind : s.tasks.find? (fun u => u.task_id = tid0) = some t0 := by
    rw [← hid0]
    exact find?_by_task_id s.tasks t0 hnd ht0mem
  have hidleSome : findIdleByCap s.agents c = some a :=
    findIdleByCap_eq_some s.agents a c hamem haidle hacap huniq
  -- pending ids are distinct, so the oldest id is not among the newer ones
  have hpnd : (pendingIds s).Nodup := by
    have hsub : List.Sublist
        ((s.tasks.filter (fun t => t.state = .Pending)).map Task.task_id)
        (s.tasks.map Task.task_id) :=
      List.Sublist.map Task.task_id (List.filter_sublist s.tasks)
    exact List.Nodup.sublist hsub hnd
  have htid0rest : tid0 ∉ rest := by
    rw [hp0] at hpnd
    exact (List.nodup_cons.mp hpnd).1
  -- the pass performs exactly one assignment
  have hstep : assignPass s = assignGo rest (assignTo s tid0 a.agent_id) := by
    unfold assignPass
    rw [hp0]
    conv_lhs => unfold assignGo
    rw [hfind]
    dsimp only
    rw [if_pos ht0p, ht0c, hidleSome]
  -- after it, no Idle agent of capability c is left
  have hidleNone : findIdleByCap (assignTo s tid0 a.agent_id).agents c = none := by
    apply List.find?_eq_none.mpr
    intro b' hb'
    simp only [assignTo, List.mem_map] at hb'
    obtain ⟨b0, hb0, rfl⟩ := hb'
    by_cases hbid : b0.agent_id = a.agent_id
    · simp [hbid]
    · simp only [if_neg hbid, decide_eq_true_eq]
      intro hcontra
      rcases hcontra with ⟨h1, h2⟩
      exact hbid (huniq b0 hb0 h1 h2 ▸ rfl)
  -- every task the loop could still look at requires capability c
  have hcapRest : ∀ tid ∈ rest, ∀ t',
      (assignTo s tid0 a.agent_id).tasks.find? (fun u => u.task_id = tid) = some t' →
      t'.capability_required = c := by
    intro tid htid t' hf'
    have hpred := List.find?_some hf'
    have ht'id : t'.task_id = tid := by simpa using hpred
    have ht'mem : t' ∈ (assignTo s tid0 a.agent_id).tasks :=
      List.mem_of_find?_eq_some hf'
    simp only [assignTo, List.mem_map] at ht'mem
    obtain ⟨v, hv, hgv⟩ := ht'mem
    have hvid : v.task_id = tid := by
      rw [← ht'id, ← hgv]
      by_cases hvt : v.task_id = tid0 <;> simp [hvt]
    have hvcap : t'.capability_required = v.capability_required := by
      rw [← hgv]
      by_cases hvt : v.task_id = tid0 <;> simp [hvt]
    obtain ⟨w, hw, hwid⟩ := List.mem_map.mp
      (show tid ∈ rest'.map Task.task_id by rw [hmaprest]; exact htid)
    have hwfil : w ∈ s.tasks.filter (fun t => t.state = .Pending) := by
      rw [hfil]; exact List.mem_cons_of_mem t0 hw
    have hwmem : w ∈ s.tasks := (List.mem_filter.mp hwfil).1
    have hwp : w.state = .Pending := by simpa using (List.mem_filter.mp hwfil).2
    have hvw : v = w :=
      eq_of_nodup_map Task.task_id s.tasks hnd v w hv hwmem (by rw [hvid, hwid])
    rw [hvcap, hvw]
    exact hcap w hwmem hwp
  have hstop : assignGo rest (assignTo s tid0 a.agent_id) = assignTo s tid0 a.agent_id :=
    assignGo_stop c rest _ hidleNone hcapRest
  rw [hstep, hstop]
  refine ⟨?_, ?_, ?_⟩
  · intro t ht htid
    simp only [assignTo, List.mem_map] at ht
    obtain ⟨v, hv, rfl⟩ := ht
    by_cases hvt : v.task_id = tid0
    · rw [if_pos hvt]
      exact ⟨rfl, rfl⟩
    · exfalso
      rw [if_neg hvt] at htid
      exact hvt htid
  · intro t ht htid
    simp only [assignTo, List.mem_map] at ht
    obtain ⟨v, hv, rfl⟩ := ht
    by_cases hvt : v.task_id = tid0
    · exfalso
      rw [if_pos hvt] at htid
      have h2 : v.task_id ∈ rest := htid
      exact htid0rest (hvt ▸ h2)
    · rw [if_neg hvt] at htid ⊢
      obtain ⟨w, hw, hwid⟩ := List.mem_map.mp
        (show v.task_id ∈ rest'.map Task.task_id by rw [hmaprest]; exact htid)
      have hwfil : w ∈ s.tasks.filter (fun t => t.state = .Pending) := by
        rw [hfil]; exact List.mem_cons_of_mem t0 hw
      have hwmem : w ∈ s.tasks := (List.mem_filter.mp hwfil).1
      have hwp : w.state = .Pending := by simpa using (List.mem_filter.mp hwfil).2
      have hvw : v = w :=
        eq_of_nodup_map Task.task_id s.tasks hnd v w hv hwmem hwid.symm
      rw [hvw]
      exact hwp
  · refine ⟨if t0.task_id = tid0
        then { t0 with state := .Assigned, assigned_agent_id := some a.agent_id }
        else t0, ?_, ?_⟩
    · simp only [assignTo, List.mem_map]
      exact ⟨t0, ht0mem, by split <;> rfl⟩
    · rw [if_pos hid0]
      exact hid0

/-- A concrete store with two Pending transcription tasks (ids 10 and 11,
submitted in that order) and one Idle transcription agent, used by
witnesses. -/
def storeTwoPending : Store :=
  { tasks :=
      [{ task_id := 10, conversation_id := 1, capability_required := .transcription,
         input := 0, state := .Pending, progress := 0, result := none, error := none,
         assigned_agent_id := none },
       { task_id := 11, conversation_id := 1, capability_required := .transcription,
         input := 0, state := .Pending, progress := 0, result := none, error := none,
         assigned_agent_id := none }]
    agents := [{ agent_id := 5, capability := .transcription, state := .Idle }]
    next_id := 12 }

/-- The single Idle transcription agent of `storeTwoPending`. -/
def agentFive : Agent := { agent_id := 5, capability := .transcription, state := .Idle }

/-- Witness for C8: on the concrete store with Pending tasks 10 and 11 and
one Idle matching agent, the assignment pass assigns task 10 (the oldest)
to the agent and leaves task 11 Pending. -/
theorem assignPass_fifo_witness :
    (∀ t ∈ (assignPass storeTwoPending).tasks, t.task_id = 10 →
        t.state = .Assigned ∧ t.assigned_agent_id = some agentFive.agent_id) ∧
    (∀ t ∈ (assignPass storeTwoPending).tasks, t.task_id ∈ [11] →
        t.state = .Pending) ∧
    (∃ t ∈ (assignPass storeTwoPending).tasks, t.task_id = 10) :=
  assignPass_fifo storeTwoPending .transcription agentFive 10 [11]
    (by decide) (by decide) (by decide) (by decide) (by decide) (by decide)
    (by decide)

/-! ## The chat window (`frontend/src/components/ChatWindow.tsx`) -/

/-- A chat message as the frontend holds it: the `__partial_agent` marker of
`ChatWindow.tsx` is the `partial_agent` flag. -/
structure Msg where
  id : String
  sender : String
  text : String
  partial_agent : Bool
deriving DecidableEq, Repr

/-- One parsed `stream_chunk` payload.  The declared chunk kinds are an
incremental `partial_text` token, a `progress` percentage, or a final
`message` object. -/
structure Chunk where
  partial_text : Option String
  progress : Option Nat
  message : Option Msg
deriving DecidableEq, Repr

/-- JavaScript truthiness of an optional string: `undefined` and the empty
string are falsy (`if (payload.partial_text)`). -/
def truthyS : Option String → Bool
  | none => false
  | some s => !(s == "")

/-- The fresh partial agent message created on a `partial_text` chunk when
the trailing message is not a partial one (`ChatWindow.tsx`, line 35). -/
def newPartialMsg (now : Nat) (t : String) : Msg :=
  { id := "partial-" ++ toString now, sender := "agent", text := t, partial_agent := true }

/-- The `stream_chunk` handler of `ChatWindow.tsx` (lines 27–41) as a state
transform on the message list: a truthy `partial_text` is merged into a
trailing partial agent message or appended as a new one; otherwise a
`message` payload is appended; any other payload (a progress chunk in
particular) falls through both branches and leaves the list unchanged. -/
def handleChunk (now : Nat) (prev : List Msg) (p : Chunk) : List Msg :=
  if truthyS p.partial_text then
    let t := p.partial_text.getD ""
    match prev.getLast? with
    | some last =>
      if last.partial_agent then
        prev.dropLast ++ [{ last with text := last.text ++ t }]
      else prev ++ [newPartialMsg now t]
    | none => prev ++ [newPartialMsg now t]
  else
    match p.message with
    | some m => prev ++ [m]
    | none => prev

/-- How the handler classifies a chunk: merged into the trailing partial,
started a new partial, appended a final message, or ignored. -/
inductive ChunkAction
  | mergedPartial
  | newPartial
  | appendedFinal
  | ignored
deriving DecidableEq, Repr

/-- The branch of the `stream_chunk` handler a chunk takes. -/
def classifyChunk (prev : List Msg) (p : Chunk) : ChunkAction :=
  if truthyS p.partial_text then
    match prev.getLast? with
    | some last => if last.partial_agent then .mergedPartial else .newPartial
    | none => .newPartial
  else
    match p.message with
    | some _ => .appendedFinal
    | none => .ignored

/-- Process a whole stream of chunks. -/
def processChunks (now : Nat) (init : List Msg) (cs : List Chunk) : List Msg :=
  cs.foldl (handleChunk now) init

/-- A progress-only chunk, reporting 42 percent. -/
def progressChunk42 : Chunk := { partial_text := none, progress := some 42, message := none }

/-- C2, counterexample to the claim as stated: a progress chunk is not
rendered by the chat window — at the concrete progress-only payload the
handler leaves the message list unchanged and classifies the chunk as
ignored, so the progress kind is not handled. -/
theorem progress_chunk_ignored_counterexample :
    handleChunk 0 [] progressChunk42 = [] ∧
    classifyChunk [] progressChunk42 = .ignored ∧
    progressChunk42.progress = some 42 := by
  refine ⟨rfl, rfl, rfl⟩

/-- C2, amended: of the three declared chunk kinds the chat window handles
two — a (truthy) `partial_text` chunk is merged into the trailing partial
agent message or starts a new one, and a final `message` chunk is appended
as a new message — while a progress chunk matches neither branch and is
silently ignored. -/
theorem handleChunk_cases :
    (∀ (now : Nat) (prev : List Msg) (p : Chunk) (t : String) (last : Msg),
        p.partial_text = some t → t ≠ "" →
        prev.getLast? = some last → last.partial_agent = true →
        handleChunk now prev p =
          prev.dropLast ++ [{ last with text := last.text ++ t }]) ∧
    (∀ (now : Nat) (prev : List Msg) (p : Chunk) (t : String),
        p.partial_text = some t → t ≠ "" →
        (∀ last, prev.getLast? = some last → last.partial_agent = false) →
        handleChunk now prev p = prev ++ [newPartialMsg now t]) ∧
    (∀ (now : Nat) (prev : List Msg) (p : Chunk) (m : Msg),
        truthyS p.partial_text = false → p.message = some m →
        handleChunk now prev p = prev ++ [m]) ∧
    (∀ (now : Nat) (prev : List Msg) (p : Chunk),
        truthyS p.partial_text = false → p.message = none →
        handleChunk now prev p = prev ∧ classifyChunk prev p = .ignored) := by
  refine ⟨?_, ?_, ?_, ?_⟩
  · intro now prev p t last hpt ht hlast hflag
    have htr : truthyS (some t) = true := by
      simpa [truthyS] using ht
    simp [handleChunk, hpt, htr, hlast, hflag]
  · intro now prev p t hpt ht hnopart
    have htr : truthyS (some t) = true := by
      simpa [truthyS] using ht
    cases hlast : prev.getLast? with
    | none => simp [handleChunk, hpt, htr, hlast]
    | some last =>
      simp [handleChunk, hpt, htr, hlast, hnopart last hlast]
  · intro now prev p m hfalsy hm
    simp [handleChunk, hfalsy, hm]
  · intro now prev p hfalsy hm
    constructor
    · simp [handleChunk, hfalsy, hm]
    · simp [classifyChunk, hfalsy, hm]

/-- A trailing partial agent message with text "He", used by witnesses. -/
def msgHe : Msg := { id := "a", sender := "agent", text := "He", partial_agent := true }

/-- A `partial_text` chunk carrying "llo", used by witnesses. -/
def chunkLlo : Chunk := { partial_text := some "llo", progress := none, message := none }

/-- Witness for the amended C2: at concrete inputs, a partial chunk merges
into the trailing partial message and a progress-only chunk is ignored. -/
theorem handleChunk_cases_witness :
    handleChunk 0 [msgHe] chunkLlo =
        [msgHe].dropLast ++ [{ msgHe with text := msgHe.text ++ "llo" }] ∧
    handleChunk 3 [] progressChunk42 = [] ∧
    classifyChunk [] progressChunk42 = .ignored :=
  ⟨handleChunk_cases.1 0 [msgHe] chunkLlo "llo" msgHe rfl (by decide) rfl rfl,
   (handleChunk_cases.2.2.2 3 [] progressChunk42 rfl rfl).1,
   (handleChunk_cases.2.2.2 3 [] progressChunk42 rfl rfl).2⟩

/-! ## At most one trailing partial message (C10) -/

/-- A chunk the handler's first branch fires on: a truthy `partial_text`. -/
def isPartialChunk (p : Chunk) : Bool := truthyS p.partial_text

/-- A chunk the handler's second branch fires on: no truthy `partial_text`
and a present final `message`. -/
def isFinalChunk (p : Chunk) : Bool := !truthyS p.partial_text && p.message.isSome

/-- A chunk whose final-message payload, if any, is not itself flagged as a
partial agent message (final messages come from the backend unflagged). -/
def msgUnflagged (p : Chunk) : Bool :=
  match p.message with
  | some m => !m.partial_agent
  | none => true

/-- A final agent message, used in the C10 counterexample. -/
def finalMsgM : Msg := { id := "m1", sender := "agent", text := "done", partial_agent := false }

/-- C10, counterexample to the claim as stated: the chunk sequence
partial "a", final message, partial "b" leaves TWO messages flagged as
partial agent messages in the list (and the first of them is not the last
element), because a final message appended after a partial leaves that
partial in place and a later partial chunk then starts a fresh entry. -/
theorem trailing_partial_counterexample :
    ((processChunks 0 []
        [{ partial_text := some "a", progress := none, message := none },
         { partial_text := none, progress := none, message := some finalMsgM },
         { partial_text := some "b", progress := none, message := none }]).filter
        (fun m => m.partial_agent)).length = 2 := by
  rfl

/-- Processing chunks that never take the partial branch, starting from a
list with no partial-flagged messages, keeps every message unflagged. -/
theorem processChunks_no_partial (now : Nat) (as : List Chunk) (init : List Msg)
    (hinit : ∀ m ∈ init, m.partial_agent = false)
    (has : ∀ p ∈ as, isPartialChunk p = false ∧ msgUnflagged p = true) :
    ∀ m ∈ processChunks now init as, m.partial_agent = false := by
  induction as generalizing init with
  | nil => exact hinit
  | cons p rest ih =>
    obtain ⟨hp1, hp2⟩ := has p (List.mem_cons_self p rest)
    have hstep : ∀ m ∈ handleChunk now init p, m.partial_agent = false := by
      intro m hm
      have htr : truthyS p.partial_text = false := hp1
      unfold handleChunk at hm
      simp only [htr, Bool.false_eq_true, if_false] at hm
      cases hpm : p.message with
      | none =>
        rw [hpm] at hm
        exact hinit m hm
      | some m0 =>
        rw [hpm] at hm
        simp only [List.mem_append, List.mem_singleton] at hm
        rcases hm with hm | rfl
        · exact hinit m hm
        · unfold msgUnflagged at hp2
          rw [hpm] at hp2
          simpa using hp2
    exact ih (handleChunk now init p) hstep
      (fun q hq => has q (List.mem_cons_of_mem p hq))

/-- Processing chunks that never append a final message preserves the
invariant that only the last list element may be partial-flagged. -/
theorem processChunks_partial_tail (now : Nat) (bs : List Chunk) (init : List Msg)
    (hinit : ∀ m ∈ init.dropLast, m.partial_agent = false)
    (hbs : ∀ p ∈ bs, isFinalChunk p = false) :
    ∀ m ∈ (processChunks now init bs).dropLast, m.partial_agent = false := by
  induction bs generalizing init with
  | nil => exact hinit
  | cons p rest ih =>
    have hstep : ∀ m ∈ (handleChunk now init p).dropLast, m.partial_agent = false := by
      by_cases htr : truthyS p.partial_text = true
      · cases hlast : init.getLast? with
        | none =>
          -- the list is empty: one fresh partial appears, nothing before it
          have hnil : init = [] := List.getLast?_eq_none_iff.mp hlast
          intro m hm
          unfold handleChunk at hm
          rw [if_pos htr, hlast] at hm
          simp [hnil] at hm
        | some last =>
          by_cases hflag : last.partial_agent = true
          · -- merge: the prefix before the trailing partial is untouched
            intro m hm
            unfold handleChunk at hm
            rw [if_pos htr, hlast] at hm
            dsimp only at hm
            rw [if_pos hflag] at hm
            rw [List.dropLast_concat] at hm
            exact hinit m hm
          · -- new partial appended after an unflagged last element
            intro m hm
            unfold handleChunk at hm
            rw [if_pos htr, hlast] at hm
            dsimp only at hm
            rw [if_neg hflag] at hm
            rw [List.dropLast_concat] at hm
            have hall : ∀ m' ∈ init, m'.partial_agent = false := by
              intro m' hm'
              have hdec : init.dropLast ++ [last] = init :=
                List.dropLast_append_getLast? last hlast
              rw [← hdec] at hm'
              rcases List.mem_append.mp hm' with h | h
              · exact hinit m' h
              · rw [List.mem_singleton.mp h]
                simpa using hflag
            exact hall m hm
      · -- not a partial chunk; since it is not a final chunk either, it is a no-op
        have hfin := hbs p (List.mem_cons_self p rest)
        have hmsg : p.message = none := by
          unfold isFinalChunk at hfin
          rw [Bool.not_eq_true] at htr
          rw [htr] at hfin
          simpa using hfin
        intro m hm
        unfold handleChunk at hm
        rw [if_neg htr, hmsg] at hm
        exact hinit m hm
    exact ih (handleChunk now init p) hstep
      (fun q hq => hbs q (List.mem_cons_of_mem p hq))

/-- A list whose non-last elements are all unflagged holds at most one
flagged element. -/
theorem count_flagged_le_one (L : List Msg)
    (h : ∀ m ∈ L.dropLast, m.partial_agent = false) :
    (L.filter (fun m => m.partial_agent)).length ≤ 1 := by
  induction L with
  | nil => simp
  | cons a L' ih =>
    cases L' with
    | nil => by_cases ha : a.partial_agent = true <;> simp [List.filter, ha]
    | cons b t =>
      have hdrop : (a :: b :: t).dropLast = a :: (b :: t).dropLast := rfl
      have ha : a.partial_agent = false :=
        h a (by rw [hdrop]; exact List.mem_cons_self _ _)
      have h' : ∀ m ∈ (b :: t).dropLast, m.partial_agent = false := fun m hm =>
        h m (by rw [hdrop]; exact List.mem_cons_of_mem a hm)
      rw [List.filter_cons_of_neg]
      · exact ih h'
      · simp [ha]

/-- C10, amended: starting from a history with no partial-flagged messages,
any chunk sequence in which every final-message chunk (with an unflagged
payload) precedes every `partial_text` chunk leaves at most one
partial-flagged message in the list, and only its last element may carry
the flag — successive `partial_text` chunks are concatenated into the
trailing partial entry rather than creating additional ones.  (Without the
ordering hypothesis the claim fails: see the counterexample.) -/
theorem processChunks_single_trailing_partial (now : Nat) (init : List Msg)
    (as bs : List Chunk)
    (hinit : ∀ m ∈ init, m.partial_agent = false)
    (has : ∀ p ∈ as, isPartialChunk p = false ∧ msgUnflagged p = true)
    (hbs : ∀ p ∈ bs, isFinalChunk p = false) :
    ((processChunks now init (as ++ bs)).filter
        (fun m => m.partial_agent)).length ≤ 1 ∧
    ∀ m ∈ (processChunks now init (as ++ bs)).dropLast, m.partial_agent = false := by
  have hsplit : processChunks now init (as ++ bs) =
      processChunks now (processChunks now init as) bs := by
    unfold processChunks
    exact List.foldl_append _ _ _ _
  have hmid := processChunks_no_partial now as init hinit has
  have hmid' : ∀ m ∈ (processChunks now init as).dropLast, m.partial_agent = false :=
    fun m hm => hmid m (List.dropLast_subset _ hm)
  have hfin := processChunks_partial_tail now bs (processChunks now init as) hmid' hbs
  rw [hsplit]
  exact ⟨count_flagged_le_one _ hfin, hfin⟩

/-- A final-message chunk carrying the unflagged `finalMsgM`. -/
def chunkFinal : Chunk := { partial_text := none, progress := none, message := some finalMsgM }

/-- A `partial_text` chunk carrying "a". -/
def chunkA : Chunk := { partial_text := some "a", progress := none, message := none }

/-- A `partial_text` chunk carrying "b". -/
def chunkB : Chunk := { partial_text := some "b", progress := none, message := none }

/-- Witness for the amended C10: a concrete run — final message and progress
first, then two partial chunks — ends with at most one partial-flagged
message, sitting last if anywhere. -/
theorem processChunks_single_trailing_partial_witness :
    ((processChunks 0 [] ([chunkFinal, progressChunk42] ++ [chunkA, chunkB])).filter
        (fun m => m.partial_agent)).length ≤ 1 ∧
    ∀ m ∈ (processChunks 0 []
        ([chunkFinal, progressChunk42] ++ [chunkA, chunkB])).dropLast,
        m.partial_agent = false :=
  processChunks_single_trailing_partial 0 [] [chunkFinal, progressChunk42]
    [chunkA, chunkB]
    (by intro m hm; cases hm) (by decide) (by decide)

/-! ## Sending a message (C9) -/

/-- The chat window's state: the rendered message list and the input
field. -/
structure ChatState where
  messages : List Msg
  input : String
deriving DecidableEq, Repr

/-- The optimistic user message `onSend` pushes (`ChatWindow.tsx`,
line 56). -/
def userMsgOf (now : Nat) (text : String) : Msg :=
  { id := "u-" ++ toString now, sender := "user", text := text, partial_agent := false }

/-- A character JavaScript's `trim` strips: the ECMAScript WhiteSpace
production (TAB, VT, FF, ZWNBSP and the Unicode Space_Separator category —
SP, NBSP, OGHAM SPACE MARK, U+2000–U+200A, NNBSP, MMSP, IDEOGRAPHIC SPACE)
together with the LineTerminator production (LF, CR, LS, PS). -/
def isWS (c : Char) : Bool :=
  let n := c.toNat
  n = 0x09 ∨ n = 0x0A ∨ n = 0x0B ∨ n = 0x0C ∨ n = 0x0D ∨ n = 0x20 ∨
  n = 0xA0 ∨ n = 0x1680 ∨ (0x2000 ≤ n ∧ n ≤ 0x200A) ∨
  n = 0x2028 ∨ n = 0x2029 ∨ n = 0x202F ∨ n = 0x205F ∨ n = 0x3000 ∨ n = 0xFEFF

/-- The test `!input.trim()` of `ChatWindow.tsx` line 54: the trimmed string
is empty exactly when every character is whitespace (or the string is
empty). -/
def isBlank (s : String) : Bool := s.toList.all isWS

/-- The `onSend` handler (`ChatWindow.tsx`, lines 53–63): a blank input —
one whose trim is empty — returns immediately; otherwise the user message
carrying the typed text is appended, the input is cleared, and the
`send_message_and_stream` command is started with the typed text (the
returned `some text`). -/
def onSend (now : Nat) (st : ChatState) : ChatState × Option String :=
  if isBlank st.input then (st, none)
  else
    ({ messages := st.messages ++ [userMsgOf now st.input], input := "" },
     some st.input)

/-- C9: an empty-or-whitespace input makes `onSend` a no-op — no message
appended, no command invoked — while any other input appends exactly one
user message carrying the typed text, clears the input field and starts
the stream with that text. -/
theorem onSend_blank_noop_else_appends :
    (∀ (now : Nat) (st : ChatState), isBlank st.input = true →
        onSend now st = (st, none)) ∧
    (∀ (now : Nat) (st : ChatState), isBlank st.input = false →
        (onSend now st).1.messages = st.messages ++ [userMsgOf now st.input] ∧
        (userMsgOf now st.input).sender = "user" ∧
        (userMsgOf now st.input).text = st.input ∧
        (onSend now st).1.input = "" ∧
        (onSend now st).2 = some st.input) := by
  constructor
  · intro now st h
    simp [onSend, h]
  · intro now st h
    simp [onSend, h, userMsgOf]

/-- Witness for C9: the concrete whitespace inputs "   " and a lone
vertical tab (U+000B, which JavaScript's `trim` strips) are dropped, and
the concrete input "hi" is appended as a user message, clearing the
field. -/
theorem onSend_blank_noop_else_appends_witness :
    onSend 7 { messages := [], input := "   " } =
      ({ messages := [], input := "   " }, none) ∧
    onSend 7 { messages := [], input := String.mk [Char.ofNat 0x0B] } =
      ({ messages := [], input := String.mk [Char.ofNat 0x0B] }, none) ∧
    (onSend 7 { messages := [], input := "hi" }).1.messages =
      [] ++ [userMsgOf 7 "hi"] ∧
    (onSend 7 { messages := [], input := "hi" }).1.input = "" ∧
    (onSend 7 { messages := [], input := "hi" }).2 = some "hi" :=
  ⟨onSend_blank_noop_else_appends.1 7 { messages := [], input := "   " } (by decide),
   onSend_blank_noop_else_appends.1 7
     { messages := [], input := String.mk [Char.ofNat 0x0B] } (by decide),
   (onSend_blank_noop_else_appends.2 7 { messages := [], input := "hi" } (by decide)).1,
   (onSend_blank_noop_else_appends.2 7 { messages := [], input := "hi" } (by decide)).2.2.2.1,
   (onSend_blank_noop_else_appends.2 7 { messages := [], input := "hi" } (by decide)).2.2.2.2⟩

/-! ## Disconnect mid-stream (C3) -/

/-- The operations a frontend component can perform against the Tauri
runtime: removing an installed event listener, or invoking a backend
command by name. -/
inductive FrontOp
  | removeListener
  | invokeCmd (cmd : String)
deriving DecidableEq, Repr

/-- The client-visible world: whether the `stream_chunk` subscription is
installed, and the underlying task's lifecycle state. -/
structure ClientWorld where
  listening : Bool
  task : TaskState
deriving DecidableEq, Repr

/-- Effect of a frontend operation: removing the listener tears down the
subscription only; an invocation of a hypothetical `cancel_task` command
would cancel the task (the frontend defines no such command — the arm
exists so the frame property below says something); any other command
leaves the world's task alone. -/
def applyFront (w : ClientWorld) : FrontOp → ClientWorld
  | .removeListener => { w with listening := false }
  | .invokeCmd cmd => if cmd = "cancel_task" then { w with task := .Cancelled } else w

/-- Run a sequence of frontend operations. -/
def runFront (w : ClientWorld) (ops : List FrontOp) : ClientWorld :=
  ops.foldl applyFront w

/-- The unmount cleanup of `ChatWindow.tsx` (lines 47–50): it resolves the
listen promise and calls the returned unlisten function, and nothing
else — in particular it invokes no backend command. -/
def chatWindowCleanup : List FrontOp := [.removeListener]

/-- C3: unmounting the chat window tears down only the stream subscription;
the cleanup contains no command invocation, so the underlying task's state
is left unchanged by the disconnect. -/
theorem cleanup_tears_down_listener_only (w : ClientWorld) :
    runFront w chatWindowCleanup = { w with listening := false } ∧
    (runFront w chatWindowCleanup).task = w.task ∧
    ∀ cmd, FrontOp.invokeCmd cmd ∉ chatWindowCleanup := by
  refine ⟨rfl, rfl, ?_⟩
  intro cmd h
  simp [chatWindowCleanup] at h

/-- Witness for C3: on a concrete world with a Running task, the cleanup
leaves the task Running. -/
theorem cleanup_tears_down_listener_only_witness :
    (runFront { listening := true, task := .Running } chatWindowCleanup).task =
      TaskState.Running :=
  (cleanup_tears_down_listener_only { listening := true, task := .Running }).2.1

/-! ## The upload panel's base64 conversion (C4) -/

/-- The number of arguments a JavaScript engine accepts in one call: the
spread `String.fromCharCode(...bytes)` passes one argument per byte and
throws `RangeError: Maximum call stack size exceeded` beyond roughly this
bound (about 65 thousand in V8, as the repository's FIXES_APPLIED.md
documents). -/
def maxSpreadArgs : Nat := 65535

/-- `String.fromCharCode(...new Uint8Array(data))` as `UploadPanel.tsx`
line 22 spreads it: `none` models the thrown RangeError when the byte array
exceeds the engine's argument limit. -/
def fromCharCodeSpread (bytes : List Nat) : Option String :=
  if bytes.length ≤ maxSpreadArgs then
    some (String.mk (bytes.map (fun b => Char.ofNat (b % 256))))
  else none

/-- The base64 alphabet. -/
def base64Chars : String :=
  "ABCDEFGHIJKLMNOPQRSTUVWXYZabcdefghijklmnopqrstuvwxyz0123456789+/"

/-- The base64 digit of a 6-bit value. -/
def b64c (n : Nat) : Char := base64Chars.toList.getD n 'A'

/-- `btoa` on byte values: standard base64 with `=` padding. -/
def btoaBytes : List Nat → String
  | [] => ""
  | [a] => String.mk [b64c (a / 4), b64c ((a % 4) * 16), '=', '=']
  | [a, b] =>
    String.mk [b64c (a / 4), b64c ((a % 4) * 16 + b / 16), b64c ((b % 16) * 4), '=']
  | a :: b :: c :: rest =>
    String.mk [b64c (a / 4), b64c ((a % 4) * 16 + b / 16),
      b64c ((b % 16) * 4 + c / 64), b64c (c % 64)] ++ btoaBytes rest

/-- The base64 step of `onFileChange` (`UploadPanel.tsx`, lines 21–22):
`btoa(String.fromCharCode(...new Uint8Array(data)))`, `none` when the
spread throws. -/
def onFileChangeB64 (bytes : List Nat) : Option String :=
  (fromCharCodeSpread bytes).map (fun s => btoaBytes (s.toList.map Char.toNat))

/-- C4 fails on the code: the un-chunked spread conversion errors on any
file larger than the engine's argument limit (here a 100000-byte file),
while on a small file it does yield the base64 encoding of exactly the
file's bytes ("Hi" ↦ "SGk="). -/
theorem onFileChange_overflow :
    onFileChangeB64 (List.replicate 100000 0) = none ∧
    onFileChangeB64 [72, 105] = some "SGk=" ∧
    maxSpreadArgs < 100000 := by
  refine ⟨?_, rfl, by decide⟩
  unfold onFileChangeB64 fromCharCodeSpread
  rw [if_neg (by rw [List.length_replicate]; decide)]
  rfl

end VA
